import Mathlib

/-
Shallow embedding of jsonpp.hpp (namespace jsonpp): the JSON value model and
its text serializer. C++ strings are modelled as List Char (one unit per
byte), size_t arithmetic is modelled explicitly modulo 2^64, and operations
that can throw return Option (none = the exception escapes).
-/

set_option autoImplicit false

namespace Jsonpp

/--
Model of the char ca[4] = \x7b\x7d buffer in escape_str (jsonpp.hpp lines
41-79): the four bytes, zero-initialized, after the switch statement wrote
the escape for c. The switch: double quote, backslash and slash become a
backslash followed by the character; backspace, form feed, newline,
carriage return and horizontal tab become backslash-b, -f, -n, -r, -t; any
other character is placed in ca[0] unchanged.
-/
def escChunkCa (c : Char) : List Char :=
  if c = '"' ∨ c = '\\' ∨ c = '/' then ['\\', c, '\x00', '\x00']
  else if c = '\x08' then ['\\', 'b', '\x00', '\x00']
  else if c = '\x0C' then ['\\', 'f', '\x00', '\x00']
  else if c = '\n' then ['\\', 'n', '\x00', '\x00']
  else if c = '\r' then ['\\', 'r', '\x00', '\x00']
  else if c = '\t' then ['\\', 't', '\x00', '\x00']
  else [c, '\x00', '\x00', '\x00']

/--
Model of out.append(ca) in escape_str (jsonpp.hpp line 81): ca decays to a
const char pointer, so std::string::append copies bytes only up to the
first NUL byte of the buffer.
-/
def escChunk (c : Char) : List Char :=
  (escChunkCa c).takeWhile (fun d => d ≠ '\x00')

/--
Embedding of jsonpp::escape_str (jsonpp.hpp lines 37-85): out starts empty
and the loop appends, for each input character, the C-string contents of
the ca buffer.
-/
def escape_str (s : List Char) : List Char :=
  s.foldl (fun out c => out ++ escChunk c) []

/--
size_t subtraction a - b (b at most 2^64), as used by out.size() - 2 in the
serializers: wraps modulo 2^64 when a is smaller than b.
-/
def sizeTSub (a b : Nat) : Nat :=
  (2 ^ 64 + a - b) % 2 ^ 64

/--
Model of std::string::erase(pos) with a single position argument: erases
from pos to the end of the string: throws std::out_of_range (none) when
pos exceeds the length.
-/
def strErase (s : List Char) (pos : Nat) : Option (List Char) :=
  if pos ≤ s.length then some (s.take pos) else none

mutual

/--
The value tree of jsonpp: one constructor per concrete JSONValue class
(JSONNullType, JSONBooleanType, JSONString, JSONArray, JSONObject), each
node carrying the address at which the object lives, so that clone
freshness and aliasing are expressible. JSONArray owns a vector of child
values, JSONObject a std::map from the raw key string to a child value
(entries listed in the map's iteration order). A JSONString built from
std::string s with the default parse = false stores s unchanged as its
raw value.
-/
inductive JSONValue : Type where
  | nullv (addr : Nat)
  | boolv (addr : Nat) (value : Bool)
  | strv (addr : Nat) (value : List Char)
  | arrv (addr : Nat) (values : JSONList)
  | objv (addr : Nat) (entries : JSONEntries)

/-- The vector of child values of a JSONArray, in storage order. -/
inductive JSONList : Type where
  | nil
  | cons (hd : JSONValue) (tl : JSONList)

/-- The entries of a JSONObject map, in the map's iteration order. -/
inductive JSONEntries : Type where
  | nil
  | cons (key : List Char) (value : JSONValue) (tl : JSONEntries)

end

mutual

/--
Embedding of the virtual to_string methods (jsonpp.hpp lines 106, 125,
189-201, 231-236, 317-329). JSONString::to_string wraps escape_str of the
raw value in double quotes. JSONArray::to_string appends each element then
a comma-space, erases at position out.size() - 2 (size_t arithmetic) and
appends the closing bracket; JSONObject::to_string appends each key's
to_string directly followed by the value's to_string, erases at position
out.size() - 2, and appends the closing brace. none means the erase threw
std::out_of_range.
-/
def to_string : JSONValue → Option (List Char)
  | .nullv _ => some "null".data
  | .boolv _ b => some (if b then "true".data else "false".data)
  | .strv _ s => some ('"' :: escape_str s ++ ['"'])
  | .arrv _ vs =>
      (elemsLoop vs).bind fun acc =>
        (strErase ('[' :: acc) (sizeTSub (acc.length + 1) 2)).map fun t => t ++ [']']
  | .objv _ es =>
      (entriesLoop es).bind fun acc =>
        (strErase ('{' :: acc) (sizeTSub (acc.length + 1) 2)).map fun t => t ++ ['}']

/--
The accumulation loop of JSONArray::to_string (jsonpp.hpp lines 192-195):
for each element, its to_string then a comma and a space.
-/
def elemsLoop : JSONList → Option (List Char)
  | .nil => some []
  | .cons v t =>
      (to_string v).bind fun s => (elemsLoop t).map fun r => s ++ ", ".data ++ r

/--
The accumulation loop of JSONObject::to_string (jsonpp.hpp lines 320-323):
for each entry, the key's JSONString::to_string (quoted, escaped) directly
followed by the value's to_string, with no colon and no separator.
-/
def entriesLoop : JSONEntries → Option (List Char)
  | .nil => some []
  | .cons k v t =>
      (to_string v).bind fun s =>
        (entriesLoop t).map fun r => ('"' :: escape_str k ++ ['"']) ++ s ++ r

end

/--
The escape map exactly as claim C1 words it: the eight listed source
characters map to their two-character escapes, and every other byte maps
to itself unchanged.
-/
def escMapC1 (c : Char) : List Char :=
  if c = '"' then ['\\', '"']
  else if c = '\\' then ['\\', '\\']
  else if c = '/' then ['\\', '/']
  else if c = '\x08' then ['\\', 'b']
  else if c = '\x0C' then ['\\', 'f']
  else if c = '\n' then ['\\', 'n']
  else if c = '\r' then ['\\', 'r']
  else if c = '\t' then ['\\', 't']
  else [c]

/--
The escape map as amended: as claim C1, except that a NUL unit contributes
nothing to the output (it is dropped entirely).
-/
def escMapC1Amended (c : Char) : List Char :=
  if c = '\x00' then [] else escMapC1 c

theorem escChunk_eq_amended (c : Char) : escChunk c = escMapC1Amended c := by
  by_cases h1 : c = '"'
  · subst h1; decide
  by_cases h2 : c = '\\'
  · subst h2; decide
  by_cases h3 : c = '/'
  · subst h3; decide
  by_cases h4 : c = '\x08'
  · subst h4; decide
  by_cases h5 : c = '\x0C'
  · subst h5; decide
  by_cases h6 : c = '\n'
  · subst h6; decide
  by_cases h7 : c = '\r'
  · subst h7; decide
  by_cases h8 : c = '\t'
  · subst h8; decide
  by_cases h0 : c = '\x00'
  · subst h0; decide
  · simp [escChunk, escChunkCa, escMapC1Amended, escMapC1, h1, h2, h3, h4, h5,
      h6, h7, h8, h0, List.takeWhile_cons]

theorem escape_str_foldl (s : List Char) (init : List Char) :
    s.foldl (fun out c => out ++ escChunk c) init = init ++ (s.map escChunk).flatten := by
  induction s generalizing init with
  | nil => simp
  | cons c t ih => simp [List.foldl, ih]

theorem escape_str_eq_flatten (s : List Char) :
    escape_str s = (s.map escChunk).flatten := by
  simpa using escape_str_foldl s []

/--
C1 (amended): for every string s, JSONString(s).to_string() is a double
quote, then escape_str(s), then a double quote, where escape_str maps the
eight listed source characters as described, drops every NUL unit, and
maps every other byte to itself unchanged.
-/
theorem c1_string_to_string_escapes (a : Nat) (s : List Char) :
    to_string (.strv a s) = some ('"' :: (s.map escMapC1Amended).flatten ++ ['"']) := by
  have h : s.map escChunk = s.map escMapC1Amended :=
    List.map_congr_left fun c _ => escChunk_eq_amended c
  simp [to_string, escape_str_eq_flatten, h]

/--
C1 counterexample: on the one-character string holding a NUL byte, the
serialized JSONString is not a quoted copy of the byte as the claim's
escape map demands: the NUL is dropped and the output is just two quotes.
-/
theorem c1_counterexample :
    to_string (.strv 0 ['\x00']) ≠ some ('"' :: (List.map escMapC1 ['\x00']).flatten ++ ['"']) := by
  decide

/--
C9: escape_str drops every NUL unit entirely (the per-character buffer is
appended as a C string), while any byte that is neither one of the eight
escaped characters nor NUL is passed through unchanged.
-/
theorem c9_escape_str_drops_nul (s1 s2 : List Char) (c : Char)
    (hq : c ≠ '"') (hb : c ≠ '\\') (hs : c ≠ '/')
    (h08 : c ≠ '\x08') (h0C : c ≠ '\x0C') (hn : c ≠ '\n')
    (hr : c ≠ '\r') (ht : c ≠ '\t') (h0 : c ≠ '\x00') :
    escape_str (s1 ++ '\x00' :: s2) = escape_str s1 ++ escape_str s2 ∧
      escape_str [c] = [c] := by
  constructor
  · have hz : escChunk '\x00' = [] := by decide
    simp [escape_str_eq_flatten, hz]
  · simp [escape_str_eq_flatten, escChunk_eq_amended, escMapC1Amended, escMapC1,
      hq, hb, hs, h08, h0C, hn, hr, ht, h0]

/-- Witness for C9 at concrete inputs. -/
theorem c9_witness :
    escape_str (['x'] ++ '\x00' :: ['y']) = escape_str ['x'] ++ escape_str ['y'] ∧
      escape_str ['a'] = ['a'] :=
  c9_escape_str_drops_nul ['x'] ['y'] 'a' (by decide) (by decide) (by decide)
    (by decide) (by decide) (by decide) (by decide) (by decide) (by decide)

/--
C4 is a code bug: serializing an empty JSONArray or JSONObject does not
return the two-character bracket pair: out holds one character, the erase
position out.size() - 2 wraps around in size_t to 2^64 - 1, and
std::string::erase throws std::out_of_range, so to_string never returns.
-/
theorem c4_empty_containers_throw :
    to_string (.arrv 0 .nil) = none ∧ to_string (.objv 0 .nil) = none := by
  constructor <;>
    simp [to_string, elemsLoop, entriesLoop, strErase, sizeTSub]

theorem sizeTSub_two (a : Nat) (h2 : 2 ≤ a) (hlt : a < 2 ^ 64) :
    sizeTSub a 2 = a - 2 := by
  unfold sizeTSub
  generalize hN : (2 : Nat) ^ 64 = N at hlt ⊢
  have h1 : N + a - 2 = N + (a - 2) := by omega
  rw [h1, Nat.add_mod_left]
  exact Nat.mod_eq_of_lt (by omega)

/--
Claim side of C3: the list of the elements' to_string results, in storage
order (none when a nested serialization throws).
-/
def renderElems : JSONList → Option (List (List Char))
  | .nil => some []
  | .cons v t =>
      (to_string v).bind fun s => (renderElems t).map fun r => s :: r

/-- Claim side of C3: joining a list of rendered elements by comma-space. -/
def joinComma : List (List Char) → List Char
  | [] => []
  | [x] => x
  | x :: y :: ys => x ++ ", ".data ++ joinComma (y :: ys)

def elemsLoop_eq_render : ∀ (vs : JSONList) (parts : List (List Char)),
    renderElems vs = some parts →
    elemsLoop vs = some ((parts.map fun p => p ++ ", ".data).flatten)
  | .nil, parts, h => by
      simp only [renderElems, Option.some_inj] at h
      subst h
      simp [elemsLoop]
  | .cons v t, parts, h => by
      simp only [renderElems, Option.bind_eq_some, Option.map_eq_some'] at h
      obtain ⟨s, hs, r, hrr, hp⟩ := h
      have ih := elemsLoop_eq_render t r hrr
      subst hp
      simp [elemsLoop, hs, ih]

theorem flatten_map_comma (parts : List (List Char)) (hne : parts ≠ []) :
    (parts.map fun p => p ++ ", ".data).flatten = joinComma parts ++ ", ".data := by
  induction parts with
  | nil => exact absurd rfl hne
  | cons x xs ih =>
    cases xs with
    | nil => simp [joinComma]
    | cons y ys =>
      have ih2 := ih (by simp)
      simp only [joinComma]
      rw [List.map_cons, List.flatten_cons, ih2]
      simp [List.append_assoc]

/--
C3: for every non-empty JSONArray whose elements all serialize, to_string
returns an opening bracket, the elements' to_string results in storage
order joined by comma-space, and a closing bracket. The length bound
reflects that std::string sizes are size_t values.
-/
theorem c3_array_to_string (a : Nat) (vs : JSONList) (parts : List (List Char))
    (hne : vs ≠ JSONList.nil) (hr : renderElems vs = some parts)
    (hlen : (joinComma parts).length + 3 < 2 ^ 64) :
    to_string (.arrv a vs) = some ('[' :: joinComma parts ++ [']']) := by
  have hpne : parts ≠ [] := by
    cases vs with
    | nil => exact absurd rfl hne
    | cons v t =>
      simp only [renderElems, Option.bind_eq_some, Option.map_eq_some'] at hr
      obtain ⟨s, _, r, _, hp⟩ := hr
      rw [← hp]
      simp
  have hloop := elemsLoop_eq_render vs parts hr
  rw [flatten_map_comma parts hpne] at hloop
  have hsep : ", ".data = [',', ' '] := rfl
  have hlength : (joinComma parts ++ ", ".data).length + 1
      = (joinComma parts).length + 3 := by simp [hsep]
  have hsub : sizeTSub ((joinComma parts ++ ", ".data).length + 1) 2
      = (joinComma parts).length + 1 := by
    rw [hlength, sizeTSub_two _ (by omega) (by omega)]
    omega
  have houtlen : (joinComma parts).length + 1
      ≤ ('[' :: (joinComma parts ++ ", ".data)).length := by simp [hsep]
  simp only [to_string]
  rw [hloop, Option.some_bind, hsub]
  simp only [strErase]
  rw [if_pos houtlen, List.take_succ_cons, List.take_left, Option.map_some']

/-- The three-element array of claim C3: null, boolean true, string a. -/
def vsC3 : JSONList :=
  .cons (.nullv 1) (.cons (.boolv 2 true) (.cons (.strv 3 ['a']) .nil))

/-- The rendered elements of vsC3. -/
def partsC3 : List (List Char) :=
  ["null".data, "true".data, ['"', 'a', '"']]

/--
Witness for C3: the three-element array of null, true and the string a
serializes exactly to the bracketed, comma-space separated text of the
claim.
-/
theorem c3_witness :
    to_string (.arrv 0 vsC3) = some ('[' :: joinComma partsC3 ++ [']']) ∧
      '[' :: joinComma partsC3 ++ [']'] = "[null, true, \"a\"]".data :=
  ⟨c3_array_to_string 0 vsC3 partsC3 (fun h => JSONList.noConfusion h)
    (by decide) (by decide), by decide⟩

/--
Claim side of C5: per entry, the key's quoted and escaped text immediately
concatenated with the value's to_string (no colon, no separator), in the
map's iteration order.
-/
def renderEntries : JSONEntries → Option (List (List Char))
  | .nil => some []
  | .cons k v t =>
      (to_string v).bind fun s =>
        (renderEntries t).map fun r => (('"' :: escape_str k ++ ['"']) ++ s) :: r

def entriesLoop_eq_render : ∀ (es : JSONEntries) (chunks : List (List Char)),
    renderEntries es = some chunks → entriesLoop es = some chunks.flatten
  | .nil, chunks, h => by
      simp only [renderEntries, Option.some_inj] at h
      subst h
      simp [entriesLoop]
  | .cons k v t, chunks, h => by
      simp only [renderEntries, Option.bind_eq_some, Option.map_eq_some'] at h
      obtain ⟨s, hs, r, hrr, hp⟩ := h
      have ih := entriesLoop_eq_render t r hrr
      subst hp
      simp [entriesLoop, hs, ih, List.append_assoc]

theorem renderEntries_flatten_two (es : JSONEntries) (chunks : List (List Char))
    (hne : es ≠ .nil) (hr : renderEntries es = some chunks) :
    2 ≤ chunks.flatten.length := by
  cases es with
  | nil => exact absurd rfl hne
  | cons k v t =>
    simp only [renderEntries, Option.bind_eq_some, Option.map_eq_some'] at hr
    obtain ⟨s, _, r, _, hp⟩ := hr
    rw [← hp]
    simp
    omega

/--
C5: for every non-empty JSONObject whose values all serialize, to_string
returns an opening brace, then the concatenation over the stored entries
of the key's quoted and escaped text immediately followed by the value's
to_string (no colon, no separator), with the final two characters of that
accumulated text removed, then a closing brace.
-/
theorem c5_object_to_string (a : Nat) (es : JSONEntries) (chunks : List (List Char))
    (hne : es ≠ JSONEntries.nil) (hr : renderEntries es = some chunks)
    (hlen : chunks.flatten.length + 1 < 2 ^ 64) :
    to_string (.objv a es)
      = some ('{' :: chunks.flatten.take (chunks.flatten.length - 2) ++ ['}']) := by
  have h2 : 2 ≤ chunks.flatten.length := renderEntries_flatten_two es chunks hne hr
  have hloop := entriesLoop_eq_render es chunks hr
  have hsub : sizeTSub (chunks.flatten.length + 1) 2 = chunks.flatten.length - 1 := by
    rw [sizeTSub_two _ (by omega) (by omega)]
    omega
  have houtlen : chunks.flatten.length - 1 ≤ ('{' :: chunks.flatten).length := by
    simp
    omega
  have hpred : chunks.flatten.length - 1 = (chunks.flatten.length - 2) + 1 := by omega
  simp only [to_string]
  rw [hloop, Option.some_bind, hsub]
  simp only [strErase]
  rw [if_pos houtlen, hpred, List.take_succ_cons, Option.map_some']

/-- The one-entry object of the C5 witness: key k mapped to boolean true. -/
def esC5 : JSONEntries := .cons ['k'] (.boolv 1 true) .nil

/-- The rendered entry of esC5: quoted key followed by true. -/
def chunksC5 : List (List Char) := [['"', 'k', '"', 't', 'r', 'u', 'e']]

/--
Witness for C5: the one-entry object maps to the braced text with no colon
and with the last two characters of the accumulated entry text removed,
chopping the value text itself.
-/
theorem c5_witness :
    to_string (.objv 0 esC5)
      = some ('{' :: chunksC5.flatten.take (chunksC5.flatten.length - 2) ++ ['}']) ∧
      '{' :: chunksC5.flatten.take (chunksC5.flatten.length - 2) ++ ['}']
        = "\x7b\"k\"tr\x7d".data :=
  ⟨c5_object_to_string 0 esC5 chunksC5 (fun h => JSONEntries.noConfusion h)
    (by decide) (by decide), by decide⟩

/--
Modelled from the spec: JSONString defines no operator less-than, although
std::map of JSONString keys requires one through std::less (the header is
ill-formed at every map operation, see claims C6 and C8). The spec states
that String has equality and ordering by raw value, so the key order is
modelled as the lexicographic byte order of the raw character sequence,
which is what std::string comparison would give.
-/
def lexLt : List Char → List Char → Bool
  | [], [] => false
  | [], _ :: _ => true
  | _ :: _, [] => false
  | a :: as, b :: bs => if a < b then true else if b < a then false else lexLt as bs

theorem lexLt_asymm : ∀ xs ys : List Char, lexLt xs ys = true → lexLt ys xs = false
  | [], [] => by simp [lexLt]
  | [], y :: ys => by simp [lexLt]
  | x :: xs, [] => by simp [lexLt]
  | x :: xs, y :: ys => by
      by_cases hxy : x < y
      · intro _
        simp [lexLt, hxy, lt_asymm hxy]
      · by_cases hyx : y < x
        · intro h
          simp [lexLt, hxy, hyx] at h
        · intro h
          simp only [lexLt, if_neg hxy, if_neg hyx] at h
          simp [lexLt, if_neg hyx, if_neg hxy, lexLt_asymm xs ys h]

theorem lexLt_total_ne : ∀ xs ys : List Char, xs ≠ ys →
    lexLt xs ys = true ∨ lexLt ys xs = true
  | [], [] => fun h => absurd rfl h
  | [], _ :: _ => fun _ => Or.inl (by simp [lexLt])
  | _ :: _, [] => fun _ => Or.inr (by simp [lexLt])
  | x :: xs, y :: ys => fun h => by
      rcases lt_trichotomy x y with hxy | hxy | hxy
      · exact Or.inl (by simp [lexLt, hxy])
      · subst hxy
        have hne : xs ≠ ys := fun he => h (by rw [he])
        rcases lexLt_total_ne xs ys hne with h1 | h1
        · exact Or.inl (by simp [lexLt, lt_irrefl, h1])
        · exact Or.inr (by simp [lexLt, lt_irrefl, h1])
      · exact Or.inr (by simp [lexLt, hxy])

/--
Embedding of JSONArray::operator[] (jsonpp.hpp lines 163-164): it returns
values[index] through std::vector::operator[], which performs no bounds
check. The result is defined exactly under the precondition
index < values.size(); for any other index the behavior is undefined,
which the embedding represents as an empty domain: no value and, notably,
no signaled failure.
-/
def vector_subscript (values : List JSONValue) (index : Nat) : Part JSONValue :=
  ⟨index < values.length, fun h => values.get ⟨index, h⟩⟩

/--
The indexed access exactly as claim C7 words it: a checked lookup that
signals an out-of-range failure when the index is not below the count.
-/
def subscriptClaimC7 (values : List JSONValue) (index : Nat) : Except String JSONValue :=
  if h : index < values.length then .ok (values.get ⟨index, h⟩)
  else .error "out_of_range"

/--
C7 counterexample: reading index 5 of a one-element array. The claimed
checked access signals an out-of-range failure there, but the code's
unchecked vector access has no defined outcome at all: nothing is
signaled.
-/
theorem c7_counterexample :
    ¬ (vector_subscript [JSONValue.nullv 0] 5).Dom ∧
      subscriptClaimC7 [JSONValue.nullv 0] 5 = Except.error "out_of_range" := by
  constructor
  · show ¬ (5 < 1)
    omega
  · rfl

/--
C7 (amended): indexed access requires index < size as its precondition:
the access is defined exactly when the index is below the element count,
and then returns the stored element; an out-of-range index has no defined
behavior (the vector access is unchecked), so no failure is signaled and
no value is produced.
-/
theorem c7_subscript_precondition (values : List JSONValue) (index : Nat) :
    ((vector_subscript values index).Dom ↔ index < values.length) ∧
      ∀ h : index < values.length,
        (vector_subscript values index).get h = values.get ⟨index, h⟩ :=
  ⟨Iff.rfl, fun _ => rfl⟩

/-- Witness for C7 at a concrete in-bounds access. -/
theorem c7_witness :
    ((vector_subscript [JSONValue.boolv 0 true] 0).Dom ↔ 0 < 1) ∧
      (vector_subscript [JSONValue.boolv 0 true] 0).get Nat.zero_lt_one
        = JSONValue.boolv 0 true :=
  ⟨(c7_subscript_precondition [JSONValue.boolv 0 true] 0).1,
    (c7_subscript_precondition [JSONValue.boolv 0 true] 0).2 Nat.zero_lt_one⟩

/--
The state of the std::map inside JSONObject at the pointer level: entries
in iteration order, each mapping a raw key string to a JSONValue pointer
that may be null (none), exactly as the stored type is JSONValue*.
-/
abbrev ObjMap := List (List Char × Option JSONValue)

/-- Key membership in the map state. -/
def hasKey : ObjMap → List Char → Bool
  | [], _ => false
  | (k2, _) :: t, k => k = k2 || hasKey t k

/-- The value pointer stored for a key, if the key is present. -/
def lookupKey : ObjMap → List Char → Option (Option JSONValue)
  | [], _ => none
  | (k2, v2) :: t, k => if k = k2 then some v2 else lookupKey t k

/--
Embedding of JSONObject::operator[] (jsonpp.hpp line 290): values[index]
on the std::map. With the spec-modelled key order (lexLt), map operator[]
walks the ordered entries; if the key is absent it inserts a new entry
whose mapped JSONValue* is value-initialized, that is null, and returns
that slot; if the key is present it returns the stored slot. The result is
the map state after the call together with the returned slot's pointer.
-/
def mapIndex : ObjMap → List Char → ObjMap × Option JSONValue
  | [], k => ([(k, none)], none)
  | (k2, v2) :: t, k =>
      if lexLt k k2 then ((k, none) :: (k2, v2) :: t, none)
      else if lexLt k2 k then ((k2, v2) :: (mapIndex t k).1, (mapIndex t k).2)
      else ((k2, v2) :: t, v2)

/--
C10: evaluating the non-const keyed access on a JSONObject with a key that
has no entry mutates the object: afterwards the entry count has grown by
one, the object holds an entry for the key whose stored child pointer is
null, and the returned slot is that null pointer.
-/
theorem c10_subscript_inserts_null (o : ObjMap) (k : List Char)
    (hk : hasKey o k = false) :
    (mapIndex o k).1.length = o.length + 1 ∧
      lookupKey (mapIndex o k).1 k = some none ∧
      (mapIndex o k).2 = none := by
  induction o with
  | nil =>
    refine ⟨rfl, ?_, rfl⟩
    simp [mapIndex, lookupKey]
  | cons e t ih =>
    obtain ⟨k2, v2⟩ := e
    simp only [hasKey, Bool.or_eq_false_iff, decide_eq_false_iff_not] at hk
    obtain ⟨hne, hk2⟩ := hk
    rcases lexLt_total_ne k k2 hne with hlt | hgt
    · simp only [mapIndex, if_pos hlt]
      refine ⟨by simp, ?_, by trivial⟩
      simp [lookupKey]
    · have hnlt : ¬ lexLt k k2 = true := by
        rw [lexLt_asymm k2 k hgt]
        simp
      obtain ⟨ih1, ih2, ih3⟩ := ih hk2
      simp only [mapIndex, if_neg hnlt, if_pos hgt]
      refine ⟨by simp [ih1], ?_, ih3⟩
      simp [lookupKey, hne, ih2]

/-- The one-entry object state of the C10 witness. -/
def objC10 : ObjMap := [(['a'], some (JSONValue.nullv 7))]

/--
Witness for C10: indexing the one-entry object with the absent key b
inserts a null-valued entry, growing the map to two entries.
-/
theorem c10_witness :
    hasKey objC10 ['b'] = false ∧
      ((mapIndex objC10 ['b']).1.length = objC10.length + 1 ∧
        lookupKey (mapIndex objC10 ['b']).1 ['b'] = some none ∧
        (mapIndex objC10 ['b']).2 = none) :=
  ⟨by decide, c10_subscript_inserts_null objC10 ['b'] (by decide)⟩

theorem bool_and_true {a b : Bool} (h : (a && b) = true) : a = true ∧ b = true :=
  ⟨by cases a <;> simp_all, by cases b <;> simp_all⟩

/-- Concatenation of entry lists (used to state facts about map insertion). -/
def appendE : JSONEntries → JSONEntries → JSONEntries
  | .nil, e => e
  | .cons k v t, e => .cons k v (appendE t e)

/--
Insert-or-assign on the ordered entry list: the effect of
values[pa.first] = pa.second->clone() in the JSONObject copy constructor
(jsonpp.hpp lines 276-280), with the spec-modelled key order lexLt. A new
key is placed at its ordered position; an existing key keeps its stored
key object and receives the new value.
-/
def mapInsert : JSONEntries → List Char → JSONValue → JSONEntries
  | .nil, k, v => .cons k v .nil
  | .cons k2 v2 t, k, v =>
      if lexLt k k2 then .cons k v (.cons k2 v2 t)
      else if lexLt k2 k then .cons k2 v2 (mapInsert t k v)
      else .cons k2 v t

mutual

/--
Embedding of the virtual clone methods (jsonpp.hpp lines 112-114, 131-133,
177-179, 242-244, 305-307) together with the free function jsonpp::clone
(lines 99-101) used by the JSONArray copy constructor. Every clone
allocates a fresh object, modelled by threading an allocation counter n
that supplies fresh addresses: the result is the cloned tree paired with
the next unused address. JSONArray's copy constructor (lines 148-153)
clones the elements in storage order; JSONObject's copy constructor
(lines 276-280) iterates the source entries in order and insert-assigns
the cloned value at the copied key.
-/
def cloneV : JSONValue → Nat → JSONValue × Nat
  | .nullv _, n => (.nullv n, n + 1)
  | .boolv _ b, n => (.boolv n b, n + 1)
  | .strv _ s, n => (.strv n s, n + 1)
  | .arrv _ vs, n => (.arrv n (cloneL vs (n + 1)).1, (cloneL vs (n + 1)).2)
  | .objv _ es, n => (.objv n (objCopyGo es .nil (n + 1)).1, (objCopyGo es .nil (n + 1)).2)

/-- Element-wise cloning of the array elements, left to right. -/
def cloneL : JSONList → Nat → JSONList × Nat
  | .nil, n => (.nil, n)
  | .cons v t, n =>
      (.cons (cloneV v n).1 (cloneL t (cloneV v n).2).1, (cloneL t (cloneV v n).2).2)

/--
The JSONObject copy-constructor loop: for each source entry in order,
insert-assign the cloned value into the accumulated map.
-/
def objCopyGo : JSONEntries → JSONEntries → Nat → JSONEntries × Nat
  | .nil, acc, n => (acc, n)
  | .cons k v t, acc, n => objCopyGo t (mapInsert acc k (cloneV v n).1) (cloneV v n).2

end

/--
Straight entry-wise cloning (key kept, value cloned), threading the
allocation counter: the list the copy-constructor loop is proved to build.
-/
def cloneMapE : JSONEntries → Nat → JSONEntries × Nat
  | .nil, n => (.nil, n)
  | .cons k v t, n =>
      (.cons k (cloneV v n).1 (cloneMapE t (cloneV v n).2).1, (cloneMapE t (cloneV v n).2).2)

mutual

/-- The addresses of every node of a value tree. -/
def addrsV : JSONValue → List Nat
  | .nullv a => [a]
  | .boolv a _ => [a]
  | .strv a _ => [a]
  | .arrv a vs => a :: addrsL vs
  | .objv a es => a :: addrsE es

/-- The addresses of every node of an element list. -/
def addrsL : JSONList → List Nat
  | .nil => []
  | .cons v t => addrsV v ++ addrsL t

/-- The addresses of every node of an entry list. -/
def addrsE : JSONEntries → List Nat
  | .nil => []
  | .cons _ v t => addrsV v ++ addrsE t

end

mutual

/--
The effect, on the tree rooted at a value, of overwriting the heap object
at address p with the value w: every node living at p is replaced. A tree
that does not contain p is untouched.
-/
def mutateV (p : Nat) (w : JSONValue) : JSONValue → JSONValue
  | .nullv a => if a = p then w else .nullv a
  | .boolv a b => if a = p then w else .boolv a b
  | .strv a s => if a = p then w else .strv a s
  | .arrv a vs => if a = p then w else .arrv a (mutateL p w vs)
  | .objv a es => if a = p then w else .objv a (mutateE p w es)

/-- mutateV applied to each element of an array. -/
def mutateL (p : Nat) (w : JSONValue) : JSONList → JSONList
  | .nil => .nil
  | .cons v t => .cons (mutateV p w v) (mutateL p w t)

/-- mutateV applied to each value of an entry list. -/
def mutateE (p : Nat) (w : JSONValue) : JSONEntries → JSONEntries
  | .nil => .nil
  | .cons k v t => .cons k (mutateV p w v) (mutateE p w t)

end

/-- k is strictly below every key of the entry list. -/
def keyLtAll (k : List Char) : JSONEntries → Bool
  | .nil => true
  | .cons k2 _ t => lexLt k k2 && keyLtAll k t

/-- The entry list's keys are strictly ascending (the std::map invariant). -/
def sortedKeysE : JSONEntries → Bool
  | .nil => true
  | .cons k _ t => keyLtAll k t && sortedKeysE t

/-- Every key of the first entry list is strictly below k. -/
def allKeysLt : JSONEntries → List Char → Bool
  | .nil, _ => true
  | .cons k2 _ t, k => lexLt k2 k && allKeysLt t k

/-- Every key of acc is strictly below every key of the second list. -/
def accBelow (acc : JSONEntries) : JSONEntries → Bool
  | .nil => true
  | .cons k _ t => allKeysLt acc k && accBelow acc t

mutual

/--
Well-formedness: at every object node the entry keys are strictly
ascending, which is the invariant std::map maintains for the stored
entries.
-/
def wfV : JSONValue → Bool
  | .nullv _ => true
  | .boolv _ _ => true
  | .strv _ _ => true
  | .arrv _ vs => wfL vs
  | .objv _ es => sortedKeysE es && wfE es

/-- Well-formedness of every element of an array. -/
def wfL : JSONList → Bool
  | .nil => true
  | .cons v t => wfV v && wfL t

/-- Well-formedness of every value of an entry list. -/
def wfE : JSONEntries → Bool
  | .nil => true
  | .cons _ v t => wfV v && wfE t

end

def appendE_nil_right : ∀ es : JSONEntries, appendE es .nil = es
  | .nil => rfl
  | .cons k v t => by simp only [appendE, appendE_nil_right t]

def appendE_assoc : ∀ a b c : JSONEntries,
    appendE (appendE a b) c = appendE a (appendE b c)
  | .nil, _, _ => rfl
  | .cons k v t, b, c => by simp only [appendE, appendE_assoc t b c]

def accBelow_nil_left : ∀ es : JSONEntries, accBelow .nil es = true
  | .nil => rfl
  | .cons k v t => by
      simp only [accBelow, allKeysLt, Bool.true_and, accBelow_nil_left t]

def allKeysLt_append : ∀ (acc : JSONEntries) (k2 k : List Char) (c : JSONValue),
    allKeysLt acc k2 = true → lexLt k k2 = true →
    allKeysLt (appendE acc (.cons k c .nil)) k2 = true
  | .nil, k2, k, c, _, hk => by
      simp only [appendE, allKeysLt, Bool.and_eq_true]
      exact ⟨hk, by trivial⟩
  | .cons ka va ta, k2, k, c, ha, hk => by
      have ha2 := bool_and_true ha
      simp only [appendE, allKeysLt, Bool.and_eq_true]
      exact ⟨ha2.1, allKeysLt_append ta k2 k c ha2.2 hk⟩

def accBelow_append : ∀ (acc t : JSONEntries) (k : List Char) (c : JSONValue),
    accBelow acc t = true → keyLtAll k t = true →
    accBelow (appendE acc (.cons k c .nil)) t = true
  | _, .nil, _, _, _, _ => rfl
  | acc, .cons k2 v2 t2, k, c, hb, hk => by
      have hb2 := bool_and_true hb
      have hk2 := bool_and_true hk
      simp only [accBelow, Bool.and_eq_true]
      exact ⟨allKeysLt_append acc k2 k c hb2.1 hk2.1,
        accBelow_append acc t2 k c hb2.2 hk2.2⟩

def mapInsert_append : ∀ (acc : JSONEntries) (k : List Char) (c : JSONValue),
    allKeysLt acc k = true → mapInsert acc k c = appendE acc (.cons k c .nil)
  | .nil, _, _, _ => rfl
  | .cons k2 v2 t, k, c, h => by
      have h2 := bool_and_true h
      have hn : ¬ lexLt k k2 = true := by
        rw [lexLt_asymm k2 k h2.1]
        simp
      simp only [mapInsert, if_neg hn, if_pos h2.1, appendE]
      rw [mapInsert_append t k c h2.2]

def objCopyGo_spec : ∀ (es acc : JSONEntries) (n : Nat),
    sortedKeysE es = true → accBelow acc es = true →
    objCopyGo es acc n = (appendE acc (cloneMapE es n).1, (cloneMapE es n).2)
  | .nil, acc, n, _, _ => by
      simp only [objCopyGo, cloneMapE]
      rw [appendE_nil_right]
  | .cons k v t, acc, n, hs, hb => by
      have hs2 : (keyLtAll k t && sortedKeysE t) = true := hs
      have hb2 : (allKeysLt acc k && accBelow acc t) = true := hb
      obtain ⟨hklt, hst⟩ := bool_and_true hs2
      obtain ⟨hak, hat⟩ := bool_and_true hb2
      have hacc2 : accBelow (appendE acc (.cons k (cloneV v n).1 .nil)) t = true :=
        accBelow_append acc t k (cloneV v n).1 hat hklt
      have ih := objCopyGo_spec t (appendE acc (.cons k (cloneV v n).1 .nil))
        (cloneV v n).2 hst hacc2
      simp only [objCopyGo]
      rw [mapInsert_append acc k (cloneV v n).1 hak, ih, appendE_assoc]
      simp only [cloneMapE, appendE]

def mapInsert_addrs : ∀ (acc : JSONEntries) (k : List Char) (v : JSONValue) (p : Nat),
    p ∈ addrsE (mapInsert acc k v) → p ∈ addrsE acc ∨ p ∈ addrsV v
  | .nil, k, v, p => by
      intro hp
      simp only [mapInsert, addrsE, List.append_nil] at hp
      exact Or.inr hp
  | .cons k2 v2 t, k, v, p => by
      intro hp
      by_cases h1 : lexLt k k2 = true
      · simp only [mapInsert, if_pos h1, addrsE, List.mem_append] at hp
        rcases hp with hv | hv2 | ht
        · exact Or.inr hv
        · exact Or.inl (by simp only [addrsE, List.mem_append]; exact Or.inl hv2)
        · exact Or.inl (by simp only [addrsE, List.mem_append]; exact Or.inr ht)
      · by_cases h2 : lexLt k2 k = true
        · simp only [mapInsert, if_neg h1, if_pos h2, addrsE, List.mem_append] at hp
          rcases hp with hv2 | hrec
          · exact Or.inl (by simp only [addrsE, List.mem_append]; exact Or.inl hv2)
          · rcases mapInsert_addrs t k v p hrec with ha | hb
            · exact Or.inl (by simp only [addrsE, List.mem_append]; exact Or.inr ha)
            · exact Or.inr hb
        · simp only [mapInsert, if_neg h1, if_neg h2, addrsE, List.mem_append] at hp
          rcases hp with hv | ht
          · exact Or.inr hv
          · exact Or.inl (by simp only [addrsE, List.mem_append]; exact Or.inr ht)

mutual

def cloneV_addrs : ∀ (v : JSONValue) (n : Nat),
    n ≤ (cloneV v n).2 ∧ ∀ p ∈ addrsV (cloneV v n).1, n ≤ p
  | .nullv _, n => by
      constructor
      · simp only [cloneV]
        omega
      · intro p hp
        simp only [cloneV, addrsV, List.mem_singleton] at hp
        omega
  | .boolv _ _, n => by
      constructor
      · simp only [cloneV]
        omega
      · intro p hp
        simp only [cloneV, addrsV, List.mem_singleton] at hp
        omega
  | .strv _ _, n => by
      constructor
      · simp only [cloneV]
        omega
      · intro p hp
        simp only [cloneV, addrsV, List.mem_singleton] at hp
        omega
  | .arrv _ vs, n => by
      have ih := cloneL_addrs vs (n + 1)
      constructor
      · exact Nat.le_of_succ_le ih.1
      · intro p hp
        simp only [cloneV, addrsV, List.mem_cons] at hp
        rcases hp with rfl | hp
        · exact Nat.le_refl p
        · exact Nat.le_of_succ_le (ih.2 p hp)
  | .objv _ es, n => by
      have ih := objCopyGo_addrs es .nil (n + 1)
      constructor
      · exact Nat.le_of_succ_le ih.1
      · intro p hp
        simp only [cloneV, addrsV, List.mem_cons] at hp
        rcases hp with rfl | hp
        · exact Nat.le_refl p
        · rcases ih.2 p hp with hacc | hge
          · simp only [addrsE] at hacc
            exact absurd hacc (List.not_mem_nil p)
          · exact Nat.le_of_succ_le hge

def cloneL_addrs : ∀ (vs : JSONList) (n : Nat),
    n ≤ (cloneL vs n).2 ∧ ∀ p ∈ addrsL (cloneL vs n).1, n ≤ p
  | .nil, n => by
      constructor
      · exact Nat.le_refl n
      · intro p hp
        simp only [cloneL, addrsL] at hp
        exact absurd hp (List.not_mem_nil p)
  | .cons v t, n => by
      have ihv := cloneV_addrs v n
      have iht := cloneL_addrs t (cloneV v n).2
      constructor
      · exact le_trans ihv.1 iht.1
      · intro p hp
        simp only [cloneL, addrsL, List.mem_append] at hp
        rcases hp with hp | hp
        · exact ihv.2 p hp
        · exact le_trans ihv.1 (iht.2 p hp)

def objCopyGo_addrs : ∀ (es acc : JSONEntries) (n : Nat),
    n ≤ (objCopyGo es acc n).2 ∧
      ∀ p ∈ addrsE (objCopyGo es acc n).1, p ∈ addrsE acc ∨ n ≤ p
  | .nil, acc, n => by
      constructor
      · exact Nat.le_refl n
      · intro p hp
        exact Or.inl hp
  | .cons k v t, acc, n => by
      have ihv := cloneV_addrs v n
      have iht := objCopyGo_addrs t (mapInsert acc k (cloneV v n).1) (cloneV v n).2
      constructor
      · exact le_trans ihv.1 iht.1
      · intro p hp
        rcases iht.2 p hp with hin | hge
        · rcases mapInsert_addrs acc k (cloneV v n).1 p hin with h1 | h1
          · exact Or.inl h1
          · exact Or.inr (ihv.2 p h1)
        · exact Or.inr (le_trans ihv.1 hge)

end

mutual

def mutateV_not_mem : ∀ (p : Nat) (w v : JSONValue),
    p ∉ addrsV v → mutateV p w v = v
  | p, w, .nullv a => by
      intro h
      simp only [addrsV, List.mem_singleton] at h
      simp only [mutateV]
      rw [if_neg (fun he : a = p => h he.symm)]
  | p, w, .boolv a b => by
      intro h
      simp only [addrsV, List.mem_singleton] at h
      simp only [mutateV]
      rw [if_neg (fun he : a = p => h he.symm)]
  | p, w, .strv a s => by
      intro h
      simp only [addrsV, List.mem_singleton] at h
      simp only [mutateV]
      rw [if_neg (fun he : a = p => h he.symm)]
  | p, w, .arrv a vs => by
      intro h
      simp only [addrsV, List.mem_cons, not_or] at h
      obtain ⟨h1, h2⟩ := h
      simp only [mutateV, if_neg (fun he : a = p => h1 he.symm)]
      rw [mutateL_not_mem p w vs h2]
  | p, w, .objv a es => by
      intro h
      simp only [addrsV, List.mem_cons, not_or] at h
      obtain ⟨h1, h2⟩ := h
      simp only [mutateV, if_neg (fun he : a = p => h1 he.symm)]
      rw [mutateE_not_mem p w es h2]

def mutateL_not_mem : ∀ (p : Nat) (w : JSONValue) (vs : JSONList),
    p ∉ addrsL vs → mutateL p w vs = vs
  | _, _, .nil => fun _ => rfl
  | p, w, .cons v t => by
      intro h
      simp only [addrsL, List.mem_append, not_or] at h
      simp only [mutateL, mutateV_not_mem p w v h.1, mutateL_not_mem p w t h.2]

def mutateE_not_mem : ∀ (p : Nat) (w : JSONValue) (es : JSONEntries),
    p ∉ addrsE es → mutateE p w es = es
  | _, _, .nil => fun _ => rfl
  | p, w, .cons k v t => by
      intro h
      simp only [addrsE, List.mem_append, not_or] at h
      simp only [mutateE, mutateV_not_mem p w v h.1, mutateE_not_mem p w t h.2]

end

mutual

def cloneV_to_string : ∀ (v : JSONValue) (n : Nat), wfV v = true →
    to_string (cloneV v n).1 = to_string v
  | .nullv _, _, _ => rfl
  | .boolv _ _, _, _ => rfl
  | .strv _ _, _, _ => rfl
  | .arrv _ vs, n, h => by
      have hw : wfL vs = true := h
      have ih := cloneL_elemsLoop vs (n + 1) hw
      simp only [cloneV, to_string, ih]
  | .objv _ es, n, h => by
      have h2 : (sortedKeysE es && wfE es) = true := h
      have hs := (bool_and_true h2).1
      have he := (bool_and_true h2).2
      have hgo1 : (objCopyGo es .nil (n + 1)).1 = (cloneMapE es (n + 1)).1 := by
        rw [objCopyGo_spec es .nil (n + 1) hs (accBelow_nil_left es)]
        simp [appendE]
      have ih := cloneMapE_entriesLoop es (n + 1) he
      simp only [cloneV, to_string, hgo1, ih]

def cloneL_elemsLoop : ∀ (vs : JSONList) (n : Nat), wfL vs = true →
    elemsLoop (cloneL vs n).1 = elemsLoop vs
  | .nil, _, _ => rfl
  | .cons v t, n, h => by
      have h2 : (wfV v && wfL t) = true := h
      have ihv := cloneV_to_string v n (bool_and_true h2).1
      have iht := cloneL_elemsLoop t (cloneV v n).2 (bool_and_true h2).2
      simp only [cloneL, elemsLoop, ihv, iht]

def cloneMapE_entriesLoop : ∀ (es : JSONEntries) (n : Nat), wfE es = true →
    entriesLoop (cloneMapE es n).1 = entriesLoop es
  | .nil, _, _ => rfl
  | .cons k v t, n, h => by
      have h2 : (wfV v && wfE t) = true := h
      have ihv := cloneV_to_string v n (bool_and_true h2).1
      have iht := cloneMapE_entriesLoop t (cloneV v n).2 (bool_and_true h2).2
      simp only [cloneMapE, entriesLoop, ihv, iht]

end

/--
C2: for every well-formed value and any allocation point n fresh for the
tree (every existing address is below n), the clone serializes to exactly
the same text as the original, and overwriting the heap object at any
address of the clone's tree leaves the original's serialized text
unchanged: the clone shares no mutable state with the original.
-/
theorem c2_clone_deep_independent (v : JSONValue) (n : Nat)
    (hwf : wfV v = true)
    (hbelow : (addrsV v).all (fun q => decide (q < n)) = true) :
    to_string (cloneV v n).1 = to_string v ∧
      ∀ p ∈ addrsV (cloneV v n).1, ∀ w : JSONValue,
        to_string (mutateV p w v) = to_string v := by
  refine ⟨cloneV_to_string v n hwf, ?_⟩
  intro p hp w
  have hfresh : n ≤ p := (cloneV_addrs v n).2 p hp
  have hnot : p ∉ addrsV v := by
    intro hin
    have hd := List.all_eq_true.mp hbelow p hin
    have hlt : p < n := of_decide_eq_true hd
    omega
  rw [mutateV_not_mem p w v hnot]

/--
The value of the C2 witness: an object with one key holding an array that
holds a boolean, at addresses 0, 1, 2.
-/
def vC2 : JSONValue :=
  .objv 0 (.cons ['k'] (.arrv 1 (.cons (.boolv 2 true) .nil)) .nil)

/--
Witness for C2 at a concrete tree: cloning at allocation point 10 keeps
the serialized text, and overwriting the clone's root address 10 leaves
the original's text unchanged.
-/
theorem c2_witness :
    (wfV vC2 = true ∧ (addrsV vC2).all (fun q => decide (q < 10)) = true) ∧
      (to_string (cloneV vC2 10).1 = to_string vC2 ∧
        to_string (mutateV 10 (JSONValue.nullv 99) vC2) = to_string vC2) :=
  ⟨⟨by decide, by decide⟩,
    ⟨(c2_clone_deep_independent vC2 10 (by decide) (by decide)).1,
      (c2_clone_deep_independent vC2 10 (by decide) (by decide)).2 10 (by decide)
        (JSONValue.nullv 99)⟩⟩

end Jsonpp
